import Mathlib

/-!
Verification of the `Tools` repository (files `scripts/sieve.py` and
`scripts/utils.py`) against its natural-language specification.

The development shallowly embeds the two components:

* the growable Sieve of Eratosthenes (`initTable`, `widen`, `prime`,
  `__getitem__`) with explicit state passing (the mutable `self._sieve`
  list becomes a `List Bool` threaded through the functions), and
* the pseudo-inverse constructor `inverse`/`inv_function` with its binary
  search loop, returning `Except` values in place of Python exceptions.

Python exceptions are modelled as `Except` error values; machine integers
are `Int` (Python integers are unbounded, so no wrap-around modelling is
needed); Python floor division `//` on nonnegative divisors coincides with
`Int` division `/` (Euclidean division, which rounds toward negative
infinity for positive divisors).
-/

namespace Tools

/-! ## Embedding of `scripts/utils.py` -/

/-- Errors that `inv_function` (from `scripts/utils.py`) can raise:
`TypeError`, `DomainError`, `NothingFoundError`.  The `TypeError` branches
guard `isinstance(..., int)` checks which are vacuous in this embedding
(all values are `Int` by type), but the constructor is kept so the error
taxonomy matches the source. -/
inductive InvErr where
  | typeErr
  | domainErr
  | nothingFound
deriving DecidableEq

/-- A bound specification: `int` or a function of the query
(`int|_StrictlyMonotonicFunction` in `scripts/utils.py`). -/
def BoundSpec : Type := Int ⊕ (Int → Int)

/-- `b(x) if callable(b) else b` from `inv_function` (utils.py line 66). -/
def evalBound (b : BoundSpec) (x : Int) : Int :=
  match b with
  | .inl c => c
  | .inr g => g x

/-- The domain test of `inv_function` (utils.py line 60):
`(dom_left is not ... and x < dom_left) or (dom_right is not ... and x > dom_right)`.
`none` models the `...` (unbounded) sentinel. -/
def outOfDom (lo hi : Option Int) (x : Int) : Bool :=
  (match lo with | some d => decide (x < d) | none => false) ||
  (match hi with | some d => decide (d < x) | none => false)

/-- The `while left <= right` binary-search loop of `inv_function`
(utils.py lines 76-100).  `pl, pr` is the `past` pair; the source sets
`past = (left, right)` before the loop and after each update, and raises
`NothingFoundError` when the updated pair equals `past`.  `(l + r) / 2`
is Python's `(left + right) // 2` (floor division; the divisor is the
positive literal `2`, so `Int` division agrees with Python). -/
def searchLoop (f : Int → Int) (x : Int) (inc : Bool) (l r pl pr : Int) :
    Except InvErr Int :=
  if l ≤ r then
    if f ((l + r) / 2) = x then
      .ok ((l + r) / 2)
    else if inc then
      if f ((l + r) / 2) < x then
        if (l + r) / 2 + 1 = pl ∧ r = pr then .error .nothingFound
        else searchLoop f x inc ((l + r) / 2 + 1) r ((l + r) / 2 + 1) r
      else
        if l = pl ∧ (l + r) / 2 - 1 = pr then .error .nothingFound
        else searchLoop f x inc l ((l + r) / 2 - 1) l ((l + r) / 2 - 1)
    else
      if f ((l + r) / 2) < x then
        if l = pl ∧ (l + r) / 2 - 1 = pr then .error .nothingFound
        else searchLoop f x inc l ((l + r) / 2 - 1) l ((l + r) / 2 - 1)
      else
        if (l + r) / 2 + 1 = pl ∧ r = pr then .error .nothingFound
        else searchLoop f x inc ((l + r) / 2 + 1) r ((l + r) / 2 + 1) r
  else
    .ok ((l + r) / 2)
termination_by (r + 1 - l).toNat
decreasing_by
  all_goals omega

/-- `inv_function` from `scripts/utils.py` (lines 54-100).  The
`isinstance(x, int)` and bound-type checks are vacuously satisfied here
(everything is `Int`), so only the domain check, the direction probe
`increase = func(left) < func(right)` and the search loop remain. -/
def inv_function (func : Int → Int) (bd : BoundSpec × BoundSpec)
    (dom : Option Int × Option Int) (x : Int) : Except InvErr Int :=
  if outOfDom dom.1 dom.2 x then .error .domainErr
  else
    searchLoop func x
      (decide (func (evalBound bd.1 x) < func (evalBound bd.2 x)))
      (evalBound bd.1 x) (evalBound bd.2 x)
      (evalBound bd.1 x) (evalBound bd.2 x)

/-- `sqrt = inverse(lambda x: x*x, bound=(0, lambda x: x), domain=(0, ...))`
(utils.py lines 121-128). -/
def sqrt : Int → Except InvErr Int :=
  inv_function (fun v => v * v) (.inl 0, .inr (fun v => v)) (some 0, none)

/-- `cbrt = inverse(lambda x: x*x*x, bound=(lambda x: -abs(x), lambda x: abs(x)), domain=(..., ...))`
(utils.py lines 133-140). -/
def cbrt : Int → Except InvErr Int :=
  inv_function (fun v => v * v * v) (.inr (fun v => -|v|), .inr (fun v => |v|))
    (none, none)

/-! ### Correctness of the binary-search loop -/

/-- Invariant-based correctness of `searchLoop` for the increasing
direction, by induction on a bound `N` for the interval width.  The loop
is started (and restarted) with `past` equal to the current `(l, r)`
pair, exactly as the source does.  On exit the result is either an exact
preimage of `x` or the floor of the inverse: everything up to it maps
below `x`, everything above it maps above `x`. -/
theorem searchLoop_inc_aux (f : Int → Int) (x lo hi : Int)
    (mono : ∀ a b : Int, lo ≤ a → a ≤ b → b ≤ hi → f a ≤ f b) :
    ∀ (N : Nat) (l r : Int), (r + 1 - l).toNat ≤ N → lo ≤ l → r ≤ hi → l ≤ r + 1 →
    (∀ m : Int, lo ≤ m → m < l → f m < x) →
    (∀ m : Int, r < m → m ≤ hi → x < f m) →
    ∃ n : Int,
      searchLoop f x true l r l r = Except.ok n ∧
      ((lo ≤ n ∧ n ≤ hi ∧ f n = x) ∨
       (lo - 1 ≤ n ∧ n ≤ hi ∧ (∀ m : Int, lo ≤ m → m ≤ n → f m < x) ∧
        (∀ m : Int, n < m → m ≤ hi → x < f m))) := by
  intro N
  induction N with
  | zero =>
    intro l r hN hlol hrhi hlr hlow hhigh
    have hgt : ¬ l ≤ r := by omega
    refine ⟨r, ?_, Or.inr ⟨by omega, hrhi, ?_, hhigh⟩⟩
    · rw [searchLoop.eq_def, if_neg hgt]
      have hmid : (l + r) / 2 = r := by omega
      rw [hmid]
    · intro m hm hm2
      exact hlow m hm (by omega)
  | succ N ih =>
    intro l r hN hlol hrhi hlr hlow hhigh
    by_cases hle : l ≤ r
    · have hmidl : l ≤ (l + r) / 2 := by omega
      have hmidr : (l + r) / 2 ≤ r := by omega
      by_cases hex : f ((l + r) / 2) = x
      · refine ⟨(l + r) / 2, ?_, Or.inl ⟨by omega, by omega, hex⟩⟩
        rw [searchLoop.eq_def, if_pos hle, if_pos hex]
      · by_cases hlt : f ((l + r) / 2) < x
        · -- move left bound up
          have hrun : searchLoop f x true l r l r =
              searchLoop f x true ((l + r) / 2 + 1) r ((l + r) / 2 + 1) r := by
            rw [searchLoop.eq_def, if_pos hle, if_neg hex]
            simp only [if_true, and_true, true_and]
            rw [if_pos hlt, if_neg (by omega : ¬((l + r) / 2 + 1 = l))]
          obtain ⟨n, hrun2, hcase⟩ := ih ((l + r) / 2 + 1) r (by omega) (by omega) hrhi (by omega)
            (fun m hm hm2 => by
              rcases lt_or_le m l with h | h
              · exact hlow m hm h
              · exact lt_of_le_of_lt (mono m ((l + r) / 2) hm (by omega) (by omega)) hlt)
            hhigh
          exact ⟨n, hrun.trans hrun2, hcase⟩
        · -- move right bound down
          have hgt : x < f ((l + r) / 2) := by
            rcases lt_trichotomy (f ((l + r) / 2)) x with h | h | h
            · exact absurd h hlt
            · exact absurd h hex
            · exact h
          have hrun : searchLoop f x true l r l r =
              searchLoop f x true l ((l + r) / 2 - 1) l ((l + r) / 2 - 1) := by
            rw [searchLoop.eq_def, if_pos hle, if_neg hex]
            simp only [if_true, and_true, true_and]
            rw [if_neg hlt, if_neg (by omega : ¬((l + r) / 2 - 1 = r))]
          obtain ⟨n, hrun2, hcase⟩ := ih l ((l + r) / 2 - 1) (by omega) hlol (by omega) (by omega)
            hlow
            (fun m hm hm2 => by
              rcases lt_or_le r m with h | h
              · exact hhigh m h hm2
              · exact lt_of_lt_of_le hgt (mono ((l + r) / 2) m (by omega) (by omega) hm2))
          exact ⟨n, hrun.trans hrun2, hcase⟩
    · refine ⟨r, ?_, Or.inr ⟨by omega, hrhi, ?_, hhigh⟩⟩
      · rw [searchLoop.eq_def, if_neg hle]
        have hmid : (l + r) / 2 = r := by omega
        rw [hmid]
      · intro m hm hm2
        exact hlow m hm (by omega)

/-- `searchLoop` started with `past = (l, r)` never reports the
non-convergence error: each iteration strictly moves one of the bounds,
so the updated pair can never equal the previous one. -/
theorem searchLoop_ne_nothingFound (f : Int → Int) (x : Int) (inc : Bool) :
    ∀ (N : Nat) (l r : Int), (r + 1 - l).toNat ≤ N →
    searchLoop f x inc l r l r ≠ Except.error InvErr.nothingFound := by
  intro N
  induction N with
  | zero =>
    intro l r hN
    rw [searchLoop.eq_def, if_neg (by omega : ¬ l ≤ r)]
    intro h
    exact Except.noConfusion h
  | succ N ih =>
    intro l r hN
    by_cases hle : l ≤ r
    · rw [searchLoop.eq_def, if_pos hle]
      by_cases hex : f ((l + r) / 2) = x
      · rw [if_pos hex]
        intro h
        exact Except.noConfusion h
      · rw [if_neg hex]
        have h1 : ¬((l + r) / 2 + 1 = l) := by omega
        have h2 : ¬((l + r) / 2 - 1 = r) := by omega
        cases inc with
        | true =>
          simp only [if_true, and_true, true_and]
          by_cases hlt : f ((l + r) / 2) < x
          · rw [if_pos hlt, if_neg h1]
            exact ih _ _ (by omega)
          · rw [if_neg hlt, if_neg h2]
            exact ih _ _ (by omega)
        | false =>
          simp only [Bool.false_eq_true, if_false, and_true, true_and]
          by_cases hlt : f ((l + r) / 2) < x
          · rw [if_pos hlt, if_neg h2]
            exact ih _ _ (by omega)
          · rw [if_neg hlt, if_neg h1]
            exact ih _ _ (by omega)
    · rw [searchLoop.eq_def, if_neg hle]
      intro h
      exact Except.noConfusion h

/-- One iteration of `searchLoop` either returns an exact hit or recurses
on a strictly smaller interval (and in particular never takes the stall
branch from a self-`past` state). -/
theorem searchLoop_step (f : Int → Int) (x : Int) (inc : Bool) (l r : Int)
    (hle : l ≤ r) :
    (searchLoop f x inc l r l r = Except.ok ((l + r) / 2) ∧ f ((l + r) / 2) = x) ∨
    (∃ l' r' : Int, searchLoop f x inc l r l r = searchLoop f x inc l' r' l' r' ∧
      (r' + 1 - l').toNat < (r + 1 - l).toNat) := by
  by_cases hex : f ((l + r) / 2) = x
  · left
    constructor
    · rw [searchLoop.eq_def, if_pos hle, if_pos hex]
    · exact hex
  · right
    have h1 : ¬((l + r) / 2 + 1 = l) := by omega
    have h2 : ¬((l + r) / 2 - 1 = r) := by omega
    cases inc with
    | true =>
      by_cases hlt : f ((l + r) / 2) < x
      · refine ⟨(l + r) / 2 + 1, r, ?_, by omega⟩
        rw [searchLoop.eq_def, if_pos hle, if_neg hex]
        simp only [if_true, and_true, true_and]
        rw [if_pos hlt, if_neg h1]
      · refine ⟨l, (l + r) / 2 - 1, ?_, by omega⟩
        rw [searchLoop.eq_def, if_pos hle, if_neg hex]
        simp only [if_true, and_true, true_and]
        rw [if_neg hlt, if_neg h2]
    | false =>
      by_cases hlt : f ((l + r) / 2) < x
      · refine ⟨l, (l + r) / 2 - 1, ?_, by omega⟩
        rw [searchLoop.eq_def, if_pos hle, if_neg hex]
        simp only [Bool.false_eq_true, if_false, and_true, true_and]
        rw [if_pos hlt, if_neg h2]
      · refine ⟨(l + r) / 2 + 1, r, ?_, by omega⟩
        rw [searchLoop.eq_def, if_pos hle, if_neg hex]
        simp only [Bool.false_eq_true, if_false, and_true, true_and]
        rw [if_neg hlt, if_neg h1]

/-- Unfolding of `inv_function` when the domain check passes. -/
theorem inv_function_eval (func : Int → Int) (bd : BoundSpec × BoundSpec)
    (dom : Option Int × Option Int) (x : Int) (h : outOfDom dom.1 dom.2 x = false) :
    inv_function func bd dom x =
      searchLoop func x (decide (func (evalBound bd.1 x) < func (evalBound bd.2 x)))
        (evalBound bd.1 x) (evalBound bd.2 x) (evalBound bd.1 x) (evalBound bd.2 x) := by
  simp [inv_function, h]

/-- Unfolding of `inv_function` when the domain check fails. -/
theorem inv_function_domainErr (func : Int → Int) (bd : BoundSpec × BoundSpec)
    (dom : Option Int × Option Int) (x : Int) (h : outOfDom dom.1 dom.2 x = true) :
    inv_function func bd dom x = Except.error InvErr.domainErr := by
  simp [inv_function, h]

/-- For any configuration, the function returned by the inverse
constructor never reports `NothingFoundError`. -/
theorem inv_function_ne_nothingFound (func : Int → Int) (bd : BoundSpec × BoundSpec)
    (dom : Option Int × Option Int) (x : Int) :
    inv_function func bd dom x ≠ Except.error InvErr.nothingFound := by
  rcases Bool.eq_false_or_eq_true (outOfDom dom.1 dom.2 x) with h | h
  · rw [inv_function_domainErr func bd dom x h]
    intro hc
    exact InvErr.noConfusion (Except.error.inj hc)
  · rw [inv_function_eval func bd dom x h]
    exact searchLoop_ne_nothingFound func x _
      ((evalBound bd.2 x + 1 - evalBound bd.1 x).toNat) _ _ le_rfl

/-- Weak monotonicity of cubing on `Int`. -/
theorem cube_mono (a b : Int) (h : a ≤ b) : a * a * a ≤ b * b * b := by
  nlinarith [sq_nonneg (a + b), sq_nonneg (a - b), sq_nonneg a, sq_nonneg b]

/-- Strict monotonicity of cubing on `Int`. -/
theorem cube_mono_strict (a b : Int) (h : a < b) : a * a * a < b * b * b := by
  nlinarith [sq_nonneg (a + b), sq_nonneg (a - b), sq_nonneg a, sq_nonneg b]

/-- On its domain `[0, ∞)`, `sqrt` returns the floored integer square
root: the unique `n ≥ 0` with `n * n ≤ x < (n + 1) * (n + 1)`. -/
theorem sqrt_spec_nonneg (x : Int) (hx : 0 ≤ x) :
    ∃ n : Int, sqrt x = Except.ok n ∧ 0 ≤ n ∧ n * n ≤ x ∧ x < (n + 1) * (n + 1) := by
  have hdom : outOfDom (some 0, (none : Option Int)).1 (some 0, (none : Option Int)).2 x
      = false := by
    simp [outOfDom]
    omega
  have heval := inv_function_eval (fun v => v * v) (.inl 0, .inr (fun v => v))
    (some 0, none) x hdom
  simp only [evalBound] at heval
  rcases eq_or_lt_of_le hx with h0 | h1
  · -- x = 0: the direction probe is `false` and the very first midpoint hits exactly
    refine ⟨0, ?_, le_refl 0, by omega, by omega⟩
    simp only [sqrt]
    rw [heval, ← h0]
    rw [searchLoop.eq_def]
    norm_num
  · -- 1 ≤ x
    have hinc : decide ((0 : Int) * 0 < x * x) = true := by
      rw [decide_eq_true_eq]
      nlinarith
    rw [hinc] at heval
    obtain ⟨n, hrun, hcase⟩ := searchLoop_inc_aux (fun v => v * v) x 0 x
      (fun a b ha hab _ => mul_le_mul hab hab ha (le_trans ha hab))
      (x + 1 - 0).toNat 0 x le_rfl le_rfl le_rfl (by omega)
      (fun m hm hm2 => absurd (lt_of_le_of_lt hm hm2) (lt_irrefl 0))
      (fun m hm hm2 => absurd (lt_of_lt_of_le hm hm2) (lt_irrefl x))
    refine ⟨n, ?_, ?_⟩
    · simp only [sqrt]
      rw [heval]
      exact hrun
    · rcases hcase with ⟨hn0, hnx, hfn⟩ | ⟨hn1, hnx, hlow, hhigh⟩
      · have hfn2 : n * n = x := hfn
        refine ⟨hn0, by omega, by nlinarith⟩
      · have hn0 : 0 ≤ n := by
          by_contra hneg
          have h00 : x < (0 : Int) * 0 := hhigh 0 (by omega) (by omega)
          omega
        have hnn : n * n < x := hlow n hn0 le_rfl
        have hnlt : n < x := by
          by_contra hge
          have : x * x < x := hlow x (by omega) (by omega)
          nlinarith
        have hsucc : x < (n + 1) * (n + 1) := hhigh (n + 1) (by omega) (by omega)
        exact ⟨hn0, by omega, hsucc⟩

/-- Negative inputs to `sqrt` fail the domain check and raise
`DomainError` before any search. -/
theorem sqrt_spec_neg (x : Int) (hx : x < 0) :
    sqrt x = Except.error InvErr.domainErr := by
  have hdom : outOfDom (some 0, (none : Option Int)).1 (some 0, (none : Option Int)).2 x
      = true := by
    simp [outOfDom]
    omega
  simp only [sqrt]
  exact inv_function_domainErr _ _ _ _ hdom

/-- On negative inputs, `cbrt` returns the floored integer cube root:
the unique `n` with `n³ ≤ x < (n + 1)³`; it is negative. -/
theorem cbrt_spec_neg (x : Int) (hx : x < 0) :
    ∃ n : Int, cbrt x = Except.ok n ∧ n < 0 ∧ n * n * n ≤ x ∧
      x < (n + 1) * (n + 1) * (n + 1) := by
  have ha1 : 1 ≤ |x| := by
    rw [abs_of_neg hx]
    omega
  have hax : -|x| ≤ x := by
    rw [abs_of_neg hx]
    omega
  have hdom : outOfDom ((none : Option Int), (none : Option Int)).1
      ((none : Option Int), (none : Option Int)).2 x = false := by
    simp [outOfDom]
  have heval := inv_function_eval (fun v => v * v * v)
    (.inr (fun v => -|v|), .inr (fun v => |v|)) (none, none) x hdom
  simp only [evalBound] at heval
  have hinc : decide (-|x| * -|x| * -|x| < |x| * |x| * |x|) = true := by
    rw [decide_eq_true_eq]
    nlinarith
  rw [hinc] at heval
  obtain ⟨n, hrun, hcase⟩ := searchLoop_inc_aux (fun v => v * v * v) x (-|x|) |x|
    (fun a b _ hab _ => cube_mono a b hab)
    (|x| + 1 - -|x|).toNat (-|x|) |x| le_rfl le_rfl le_rfl (by omega)
    (fun m hm hm2 => absurd (lt_of_le_of_lt hm hm2) (lt_irrefl (-|x|)))
    (fun m hm hm2 => absurd (lt_of_lt_of_le hm hm2) (lt_irrefl |x|))
  refine ⟨n, ?_, ?_⟩
  · simp only [cbrt]
    rw [heval]
    exact hrun
  · rcases hcase with ⟨hnlo, hnhi, hfn⟩ | ⟨hnlo, hnhi, hlow, hhigh⟩
    · have hfn2 : n * n * n = x := hfn
      have hneg : n < 0 := by
        by_contra hge
        have hn0 : (0 : Int) ≤ n := by omega
        have : (0 : Int) ≤ n * n * n := mul_nonneg (mul_nonneg hn0 hn0) hn0
        omega
      exact ⟨hneg, by omega, by nlinarith [cube_mono_strict n (n + 1) (by omega)]⟩
    · have hge : -|x| ≤ n := by
        by_contra hlt
        have hcon : x < -|x| * -|x| * -|x| := hhigh (-|x|) (by omega) (by omega)
        nlinarith
      have hnn : n * n * n < x := hlow n hge le_rfl
      have hnlt : n < |x| := by
        by_contra hge2
        have hcon : |x| * |x| * |x| < x := hlow |x| (by omega) (by omega)
        nlinarith
      have hsucc : x < (n + 1) * (n + 1) * (n + 1) := hhigh (n + 1) (by omega) (by omega)
      have hneg : n < 0 := by
        by_contra hge2
        have hn0 : (0 : Int) ≤ n := by omega
        have : (0 : Int) ≤ n * n * n := mul_nonneg (mul_nonneg hn0 hn0) hn0
        omega
      exact ⟨hneg, by omega, hsucc⟩

/-! ## Embedding of `scripts/sieve.py` -/

/-- Python `range(start, stop, step)` as a list, for `step ≥ 1`.
`(stop - start + step - 1) / step` is the number of produced elements,
namely `⌈(stop - start) / step⌉` (which is `0` when `start ≥ stop`). -/
def rangeList (start stop step : Nat) : List Nat :=
  (List.range ((stop - start + step - 1) / step)).map (fun k => start + k * step)

/-- The inner marking loop of the sieve:
`for j in range(begin, limit, i): table[j] = False`
(sieve.py lines 38-39 and 61-62). -/
def strike (t : List Bool) (b limit i : Nat) : List Bool :=
  (rangeList b limit i).foldl (fun u j => u.set j false) t

/-- The outer loop shared by `Sieve.__init__` (sieve.py lines 34-39) and
`Sieve.widen` (lines 52-62): for `i` in `range(stop)`, skip if the table
holds `False` at `i`, otherwise strike the multiples of `i` from
`first i` up to `limit`. -/
def sieveRun (t : List Bool) (stop limit : Nat) (first : Nat → Nat) : List Bool :=
  (List.range stop).foldl
    (fun u i => if u.getD i false then strike u (first i) limit i else u) t

/-- `__BASIC_LIMIT = 1023` (sieve.py line 17). -/
def BASIC_LIMIT : Nat := 1023

/-- The table built by `Sieve.__init__` (sieve.py lines 27-39):
`[False, False] + [True] * (__BASIC_LIMIT - 1)` (so 1024 entries), then
classic elimination with `j` running from `i*i` below `length`. -/
def initTable : List Bool :=
  sieveRun ([false, false] ++ List.replicate (BASIC_LIMIT - 1) true)
    (BASIC_LIMIT + 1) (BASIC_LIMIT + 1) (fun i => i * i)

/-- `Sieve.widen` (sieve.py lines 41-62): append `length = len(table)`
fresh `True` entries, then for every `i` below the old length with
`table[i]` true clear the multiples of `i` from
`max(i*i, (length // i) * i)` below `2 * length`. -/
def widen (t : List Bool) : List Bool :=
  sieveRun (t ++ List.replicate t.length true) t.length (2 * t.length)
    (fun i => max (i * i) (t.length / i * i))

theorem strike_length (t : List Bool) (b limit i : Nat) :
    (strike t b limit i).length = t.length := by
  rw [strike]
  generalize rangeList b limit i = l
  induction l generalizing t with
  | nil => rfl
  | cons j tl ih => simp [ih, List.length_set]

theorem sieveRun_length (t : List Bool) (stop limit : Nat) (first : Nat → Nat) :
    (sieveRun t stop limit first).length = t.length := by
  rw [sieveRun]
  generalize List.range stop = l
  induction l generalizing t with
  | nil => rfl
  | cons i tl ih =>
    rw [List.foldl_cons, ih]
    split
    · exact strike_length t (first i) limit i
    · rfl

theorem widen_length (t : List Bool) : (widen t).length = 2 * t.length := by
  rw [widen, sieveRun_length]
  simp
  omega

/-- The `while x >= len(self._sieve): self.widen()` loop of `Sieve.prime`
(sieve.py lines 95-96).  The extra `0 < t.length` conjunct makes the
function total on arbitrary `List Bool` states; it holds in every state
reachable from `initTable` (whose length is 1024 and only ever doubles),
and there the condition is exactly the source's `x >= len(self._sieve)`. -/
def widenUntil (t : List Bool) (n : Nat) : List Bool :=
  if 0 < t.length ∧ t.length ≤ n then widenUntil (widen t) n else t
termination_by n + 1 - t.length
decreasing_by
  rw [widen_length]
  omega

/-- `Sieve.prime` (sieve.py lines 72-98), with the sieve state threaded
explicitly.  The guard `not isinstance(x, int) or x <= 1` reduces to
`x ≤ 1` in the embedding (the argument is an `Int` by type). -/
def prime (t : List Bool) (x : Int) : Bool × List Bool :=
  if x ≤ 1 then (false, t)
  else ((widenUntil t x.toNat).getD x.toNat false, widenUntil t x.toNat)

/-- Exactness invariant of the sieve table: within range, an entry is
true exactly at the primes (spec §3: "for all `i` in range, `table[i]`
reflects standard primality of `i`, exactly"). -/
def Exact (t : List Bool) : Prop :=
  ∀ m : Nat, m < t.length → (t.getD m false = true ↔ Nat.Prime m)

/-- States reachable by the sieve: at least the two guard entries 0 and 1
are present, and the table is exact. -/
def Good (t : List Bool) : Prop := 2 ≤ t.length ∧ Exact t

/-! ### Characterizing the marking loops -/

theorem count_lt_iff (k d step : Nat) (hstep : 0 < step) :
    k < (d + step - 1) / step ↔ k * step < d := by
  rw [Nat.lt_iff_add_one_le, Nat.le_div_iff_mul_le hstep]
  have h : (k + 1) * step = k * step + step := by ring
  omega

/-- Membership in Python's `range(start, stop, step)` for a positive step. -/
theorem mem_rangeList (start stop step m : Nat) (hstep : 0 < step) :
    m ∈ rangeList start stop step ↔
      start ≤ m ∧ m < stop ∧ step ∣ (m - start) := by
  rw [rangeList]
  simp only [List.mem_map, List.mem_range]
  constructor
  · rintro ⟨k, hk, rfl⟩
    rw [count_lt_iff _ _ _ hstep] at hk
    refine ⟨by omega, by omega, ⟨k, ?_⟩⟩
    rw [Nat.add_sub_cancel_left, mul_comm]
  · rintro ⟨h1, h2, c, hc⟩
    refine ⟨c, ?_, ?_⟩
    · rw [count_lt_iff _ _ _ hstep]
      have h3 : c * step = step * c := mul_comm c step
      omega
    · have h3 : c * step = step * c := mul_comm c step
      omega

theorem getD_set_false (t : List Bool) (j m : Nat) :
    (t.set j false).getD m false = if m = j then false else t.getD m false := by
  rcases eq_or_ne m j with h | h
  · subst h
    rw [if_pos rfl, List.getD_eq_getElem?_getD, List.getElem?_set, if_pos rfl]
    split <;> rfl
  · rw [if_neg h, List.getD_eq_getElem?_getD, List.getElem?_set,
      if_neg (fun hc => h hc.symm), List.getD_eq_getElem?_getD]

theorem getD_foldl_set (l : List Nat) (t : List Bool) (m : Nat) :
    (l.foldl (fun u j => u.set j false) t).getD m false =
      if m ∈ l then false else t.getD m false := by
  induction l generalizing t with
  | nil => simp
  | cons j tl ih =>
    rw [List.foldl_cons, ih]
    by_cases hm : m ∈ tl
    · simp [hm]
    · rw [if_neg hm, getD_set_false]
      by_cases hj : m = j
      · rw [if_pos hj, if_pos (by rw [hj]; exact List.mem_cons_self j tl)]
      · rw [if_neg hj, if_neg (by simp [hj, hm])]

/-- What `strike` does to each entry: it clears exactly the members of
`range(b, limit, i)` and leaves everything else unchanged. -/
theorem strike_getD (t : List Bool) (b limit i m : Nat) (hi : 0 < i) :
    (strike t b limit i).getD m false =
      if b ≤ m ∧ m < limit ∧ i ∣ (m - b) then false else t.getD m false := by
  rw [strike, getD_foldl_set]
  by_cases h : b ≤ m ∧ m < limit ∧ i ∣ (m - b)
  · rw [if_pos ((mem_rangeList b limit i m hi).2 h), if_pos h]
  · rw [if_neg (fun hc => h ((mem_rangeList b limit i m hi).1 hc)), if_neg h]

/-- When the step divides the starting point, clearing multiples of `i`
counted from `b` is clearing multiples of `i` plainly. -/
theorem dvd_sub_shift (i b m : Nat) (hb : i ∣ b) (hbm : b ≤ m) :
    i ∣ (m - b) ↔ i ∣ m := by
  constructor
  · intro h
    have h2 := Nat.dvd_add h hb
    rwa [Nat.sub_add_cancel hbm] at h2
  · intro h
    exact Nat.dvd_sub' h hb

theorem sieveRun_zero (t : List Bool) (limit : Nat) (first : Nat → Nat) :
    sieveRun t 0 limit first = t := rfl

theorem sieveRun_succ (t : List Bool) (stop limit : Nat) (first : Nat → Nat) :
    sieveRun t (stop + 1) limit first =
      (if (sieveRun t stop limit first).getD stop false then
        strike (sieveRun t stop limit first) (first stop) limit stop
      else sieveRun t stop limit first) := by
  rw [sieveRun, sieveRun, List.range_succ, List.foldl_append]
  rfl

/-- Master invariant for the shared outer loop.  The window
`first p ≤ m < limit` delimits the entries struck for the prime `p`; the
hypothesis `hprime` states that, at the moment the loop reaches an index
`j < stop`, the table value there (initial value minus the strikes of the
primes below `j`) is `true` exactly when `j` is prime — so exactly the
primes get their multiples struck. -/
theorem sieveRun_spec (t : List Bool) (limit : Nat) (first : Nat → Nat)
    (hdvd : ∀ p : Nat, Nat.Prime p → p ∣ first p) :
    ∀ stop : Nat, stop ≤ t.length →
    (∀ j : Nat, j < stop →
      ((t.getD j false = true ∧ ∀ p : Nat, p < j → Nat.Prime p →
          ¬(p ∣ j ∧ first p ≤ j ∧ j < limit)) ↔ Nat.Prime j)) →
    ∀ m : Nat, ((sieveRun t stop limit first).getD m false = true ↔
      (t.getD m false = true ∧ ∀ p : Nat, p < stop → Nat.Prime p →
        ¬(p ∣ m ∧ first p ≤ m ∧ m < limit))) := by
  intro stop
  induction stop with
  | zero =>
    intro hstop hprime m
    rw [sieveRun_zero]
    simp
  | succ stop ih =>
    intro hstop hprime m
    have ihm := ih (by omega) (fun j hj => hprime j (by omega))
    have hcur : ((sieveRun t stop limit first).getD stop false = true) ↔ Nat.Prime stop := by
      rw [ihm stop]
      exact hprime stop (by omega)
    rw [sieveRun_succ]
    by_cases hp : Nat.Prime stop
    · rw [if_pos (hcur.2 hp)]
      have hpos : 0 < stop := by
        have := hp.two_le
        omega
      rw [strike_getD _ _ _ _ _ hpos]
      by_cases hC : first stop ≤ m ∧ m < limit ∧ stop ∣ (m - first stop)
      · rw [if_pos hC]
        constructor
        · intro h
          exact absurd h Bool.false_ne_true
        · rintro ⟨_, hall⟩
          exact absurd
            ⟨(dvd_sub_shift stop (first stop) m (hdvd stop hp) hC.1).1 hC.2.2, hC.1, hC.2.1⟩
            (hall stop (by omega) hp)
      · rw [if_neg hC, ihm m]
        constructor
        · rintro ⟨h1, h2⟩
          refine ⟨h1, fun p hps hpp hcon => ?_⟩
          rcases (by omega : p < stop ∨ p = stop) with h | h
          · exact h2 p h hpp hcon
          · subst h
            exact hC ⟨hcon.2.1, hcon.2.2,
              (dvd_sub_shift p (first p) m (hdvd p hpp) hcon.2.1).2 hcon.1⟩
        · rintro ⟨h1, h2⟩
          exact ⟨h1, fun p hps => h2 p (by omega)⟩
    · rw [if_neg (fun hc => hp (hcur.1 hc)), ihm m]
      constructor
      · rintro ⟨h1, h2⟩
        refine ⟨h1, fun p hps hpp hcon => ?_⟩
        rcases (by omega : p < stop ∨ p = stop) with h | h
        · exact h2 p h hpp hcon
        · exact absurd (h ▸ hpp) hp
      · rintro ⟨h1, h2⟩
        exact ⟨h1, fun p hps => h2 p (by omega)⟩

/-- Entry-wise content of the raw `__init__` table before elimination:
`[False, False] + [True] * (BASIC_LIMIT - 1)`. -/
theorem base_getD_iff (m : Nat) :
    ((([false, false] ++ List.replicate (BASIC_LIMIT - 1) true) : List Bool).getD m false = true)
      ↔ (2 ≤ m ∧ m < BASIC_LIMIT + 1) := by
  match m with
  | 0 => simp
  | 1 => simp
  | (k + 2) =>
    rw [List.getD_eq_getElem?_getD,
      List.getElem?_append_right (by simp : (([false, false] : List Bool)).length ≤ k + 2)]
    simp only [List.length_cons, List.length_nil, List.getElem?_replicate, BASIC_LIMIT]
    by_cases h : k + 2 - (0 + 1 + 1) < 1023 - 1
    · rw [if_pos h]
      simp only [Option.getD_some]
      constructor
      · intro _
        omega
      · intro _
        trivial
    · rw [if_neg h]
      simp only [Option.getD_none]
      constructor
      · intro hc
        exact absurd hc Bool.false_ne_true
      · intro hc
        omega

/-- Every composite `m ≥ 2` has a prime factor `p` with `p * p ≤ m` and
`p < m` (its least factor). -/
theorem exists_small_pfactor (m : Nat) (h2 : 2 ≤ m) (hnp : ¬Nat.Prime m) :
    ∃ p : Nat, Nat.Prime p ∧ p ∣ m ∧ p * p ≤ m ∧ p < m := by
  have hmf : Nat.Prime m.minFac := Nat.minFac_prime (by omega)
  have hsq : m.minFac ^ 2 ≤ m := Nat.minFac_sq_le_self (by omega) hnp
  rw [pow_two] at hsq
  refine ⟨m.minFac, hmf, Nat.minFac_dvd m, hsq, ?_⟩
  have hle : m.minFac ≤ m := Nat.minFac_le (by omega)
  rcases Nat.lt_or_ge m.minFac m with h | h
  · exact h
  · exact absurd (Nat.prime_def_minFac.2 ⟨h2, by omega⟩) hnp

theorem initTable_length : initTable.length = BASIC_LIMIT + 1 := by
  rw [initTable, sieveRun_length, List.length_append, List.length_replicate]
  rfl

/-- Exactness of the freshly constructed table, entry by entry (with the
out-of-range entries reading as `false`). -/
theorem initTable_getD (m : Nat) :
    (initTable.getD m false = true) ↔ (Nat.Prime m ∧ m < BASIC_LIMIT + 1) := by
  have hbase : (([false, false] ++ List.replicate (BASIC_LIMIT - 1) true) : List Bool).length
      = BASIC_LIMIT + 1 := by
    rw [List.length_append, List.length_replicate]
    rfl
  have hprime : ∀ j : Nat, j < BASIC_LIMIT + 1 →
      (((([false, false] ++ List.replicate (BASIC_LIMIT - 1) true) : List Bool).getD j false = true ∧
        ∀ p : Nat, p < j → Nat.Prime p →
          ¬(p ∣ j ∧ p * p ≤ j ∧ j < BASIC_LIMIT + 1)) ↔ Nat.Prime j) := by
    intro j hj
    rw [base_getD_iff]
    constructor
    · rintro ⟨⟨h2, _⟩, hall⟩
      by_contra hnp
      obtain ⟨p, hp, hdvd2, hsq, hlt⟩ := exists_small_pfactor j h2 hnp
      exact hall p hlt hp ⟨hdvd2, hsq, hj⟩
    · intro hp
      refine ⟨⟨hp.two_le, hj⟩, fun p hps hpp hcon => ?_⟩
      rcases hp.eq_one_or_self_of_dvd p hcon.1 with h | h
      · exact absurd h hpp.ne_one
      · subst h
        have h4 : 2 * p ≤ p * p := Nat.mul_le_mul_right p hpp.two_le
        have h5 := hcon.2.1
        have h6 := hpp.two_le
        omega
  have hspec := sieveRun_spec ([false, false] ++ List.replicate (BASIC_LIMIT - 1) true)
    (BASIC_LIMIT + 1) (fun i => i * i) (fun p _ => ⟨p, rfl⟩)
    (BASIC_LIMIT + 1) (by rw [hbase]) hprime m
  rw [initTable, hspec, base_getD_iff]
  constructor
  · rintro ⟨⟨h2, hlt⟩, hall⟩
    refine ⟨?_, hlt⟩
    by_contra hnp
    obtain ⟨p, hp, hdvd2, hsq, hplt⟩ := exists_small_pfactor m h2 hnp
    exact hall p (by omega) hp ⟨hdvd2, hsq, hlt⟩
  · rintro ⟨hp, hlt⟩
    refine ⟨⟨hp.two_le, hlt⟩, fun p hps hpp hcon => ?_⟩
    rcases hp.eq_one_or_self_of_dvd p hcon.1 with h | h
    · exact absurd h hpp.ne_one
    · subst h
      have h4 : 2 * p ≤ p * p := Nat.mul_le_mul_right p hpp.two_le
      have h5 := hcon.2.1
      have h6 := hpp.two_le
      omega

/-- The sieve state after construction is good (spec §3 invariant). -/
theorem good_initTable : Good initTable := by
  constructor
  · rw [initTable_length, BASIC_LIMIT]
    omega
  · intro m hm
    rw [initTable_length] at hm
    rw [initTable_getD]
    exact ⟨fun h => h.1, fun h => ⟨h, hm⟩⟩

/-- `widen` preserves goodness: the doubled table is again exact on its
whole (doubled) range.  This is the incremental re-sieving argument: each
composite in the new region has a prime factor `p` with `p * p` below the
doubled bound, hence `p` below the old length. -/
theorem good_widen (t : List Bool) (hg : Good t) : Good (widen t) := by
  obtain ⟨hlen2, hex⟩ := hg
  have happ_lt : ∀ j : Nat, j < t.length →
      (t ++ List.replicate t.length true).getD j false = t.getD j false := by
    intro j hj
    rw [List.getD_eq_getElem?_getD, List.getElem?_append_left hj,
      ← List.getD_eq_getElem?_getD]
  have happ_ge : ∀ j : Nat, t.length ≤ j → j < 2 * t.length →
      (t ++ List.replicate t.length true).getD j false = true := by
    intro j h1 h2
    rw [List.getD_eq_getElem?_getD, List.getElem?_append_right h1,
      List.getElem?_replicate, if_pos (by omega)]
    rfl
  have hdvd : ∀ p : Nat, Nat.Prime p → p ∣ max (p * p) (t.length / p * p) := by
    intro p hp
    rcases le_total (p * p) (t.length / p * p) with h | h
    · rw [max_eq_right h]
      exact Dvd.intro_left (t.length / p) rfl
    · rw [max_eq_left h]
      exact ⟨p, rfl⟩
  have hprime : ∀ j : Nat, j < t.length →
      (((t ++ List.replicate t.length true).getD j false = true ∧
        ∀ p : Nat, p < j → Nat.Prime p →
          ¬(p ∣ j ∧ max (p * p) (t.length / p * p) ≤ j ∧ j < 2 * t.length)) ↔
        Nat.Prime j) := by
    intro j hj
    rw [happ_lt j hj]
    constructor
    · rintro ⟨h1, _⟩
      exact (hex j hj).1 h1
    · intro hp
      refine ⟨(hex j hj).2 hp, fun p hps hpp hcon => ?_⟩
      rcases hp.eq_one_or_self_of_dvd p hcon.1 with h | h
      · exact absurd h hpp.ne_one
      · subst h
        have h4 : 2 * p ≤ p * p := Nat.mul_le_mul_right p hpp.two_le
        have h6 : p * p ≤ p := le_trans (le_max_left _ _) hcon.2.1
        have h7 := hpp.two_le
        omega
  have hspec := sieveRun_spec (t ++ List.replicate t.length true) (2 * t.length)
    (fun i => max (i * i) (t.length / i * i)) hdvd t.length
    (by rw [List.length_append, List.length_replicate]; omega) hprime
  constructor
  · rw [widen_length]
    omega
  · intro m hm
    rw [widen_length] at hm
    rw [widen, hspec m]
    by_cases hcase : m < t.length
    · rw [happ_lt m hcase]
      constructor
      · rintro ⟨h1, _⟩
        exact (hex m hcase).1 h1
      · intro hp
        refine ⟨(hex m hcase).2 hp, fun p hps hpp hcon => ?_⟩
        rcases hp.eq_one_or_self_of_dvd p hcon.1 with h | h
        · exact absurd h hpp.ne_one
        · subst h
          have h4 : 2 * p ≤ p * p := Nat.mul_le_mul_right p hpp.two_le
          have h6 : p * p ≤ p := le_trans (le_max_left _ _) hcon.2.1
          have h7 := hpp.two_le
          omega
    · have hge : t.length ≤ m := by omega
      rw [happ_ge m hge hm]
      constructor
      · rintro ⟨_, hall⟩
        by_contra hnp
        obtain ⟨p, hp, hdvd2, hsq, hplt⟩ := exists_small_pfactor m (by omega) hnp
        have hpL : p < t.length := by
          by_contra hge2
          have h8 : t.length * t.length ≤ p * p := Nat.mul_le_mul (by omega) (by omega)
          have h9 : 2 * t.length ≤ t.length * t.length :=
            Nat.mul_le_mul_right t.length (by omega)
          omega
        exact hall p hpL hp
          ⟨hdvd2, max_le hsq (le_trans (Nat.div_mul_le_self t.length p) hge), hm⟩
      · intro hp
        refine ⟨rfl, fun p hps hpp hcon => ?_⟩
        rcases hp.eq_one_or_self_of_dvd p hcon.1 with h | h
        · exact absurd h hpp.ne_one
        · omega

/-- From a good state, `widenUntil` reaches coverage: goodness is
preserved and the final length strictly exceeds the query. -/
theorem widenUntil_spec_aux :
    ∀ (N : Nat) (t : List Bool) (n : Nat), n + 1 - t.length ≤ N → Good t →
      Good (widenUntil t n) ∧ n < (widenUntil t n).length := by
  intro N
  induction N with
  | zero =>
    intro t n hN hg
    rw [widenUntil.eq_def, if_neg (by omega : ¬(0 < t.length ∧ t.length ≤ n))]
    exact ⟨hg, by omega⟩
  | succ N ih =>
    intro t n hN hg
    by_cases hc : 0 < t.length ∧ t.length ≤ n
    · rw [widenUntil.eq_def, if_pos hc]
      refine ih (widen t) n ?_ (good_widen t hg)
      rw [widen_length]
      omega
    · rw [widenUntil.eq_def, if_neg hc]
      refine ⟨hg, ?_⟩
      have := hg.1
      omega

theorem widenUntil_spec (t : List Bool) (n : Nat) (hg : Good t) :
    Good (widenUntil t n) ∧ n < (widenUntil t n).length :=
  widenUntil_spec_aux (n + 1) t n (by omega) hg

/-- `prime` preserves goodness of the threaded sieve state. -/
theorem prime_good (t : List Bool) (x : Int) (hg : Good t) : Good (prime t x).2 := by
  rw [prime]
  by_cases h : x ≤ 1
  · rw [if_pos h]
    exact hg
  · rw [if_neg h]
    exact (widenUntil_spec t x.toNat hg).1

/-- From a good state, `prime` answers exactly: the returned Boolean is
the primality of `x` (with every `x ≤ 1`, in particular every negative
`x`, mapped to `false`, matching `decide (Nat.Prime 0/1) = false`). -/
theorem prime_exact (t : List Bool) (x : Int) (hg : Good t) :
    (prime t x).1 = decide (Nat.Prime x.toNat) := by
  rw [prime]
  by_cases h : x ≤ 1
  · rw [if_pos h]
    have h2 : x.toNat = 0 ∨ x.toNat = 1 := by omega
    rcases h2 with h2 | h2 <;> rw [h2]
    · exact (decide_eq_false Nat.not_prime_zero).symm
    · exact (decide_eq_false Nat.not_prime_one).symm
  · rw [if_neg h]
    obtain ⟨⟨hlen2, hex⟩, hlt⟩ := widenUntil_spec t x.toNat hg
    have hiff := hex x.toNat hlt
    by_cases hp : Nat.Prime x.toNat
    · rw [decide_eq_true hp]
      exact hiff.2 hp
    · rw [decide_eq_false hp]
      rcases Bool.eq_false_or_eq_true ((widenUntil t x.toNat).getD x.toNat false)
        with hb | hb
      · exact absurd (hiff.1 hb) hp
      · exact hb

/-! ### The packaged singleton state and ordinal access -/

/-- A sieve state together with its invariant.  The Python class is a
process-wide singleton initialised once, so every state the program can
observe is good. -/
def GoodSieve : Type := {t : List Bool // Good t}

/-- The freshly initialised singleton state (`Sieve()`). -/
def sieve0 : GoodSieve := ⟨initTable, good_initTable⟩

/-- `prime` acting on packaged good states. -/
def primeG (s : GoodSieve) (x : Int) : Bool × GoodSieve :=
  ((prime s.1 x).1, ⟨(prime s.1 x).2, prime_good s.1 x s.2⟩)

theorem primeG_fst (s : GoodSieve) (x : Nat) :
    (primeG s (x : Int)).1 = decide (Nat.Prime x) := by
  show (prime s.1 (x : Int)).1 = _
  rw [prime_exact s.1 _ s.2]
  norm_num

theorem exists_prime_ge (x : Nat) : ∃ p : Nat, x ≤ p ∧ Nat.Prime p :=
  Nat.exists_infinite_primes x

/-- The least prime `≥ x`: the specification-side description of one
step of the stream `filter(lambda v: self.prime(v), count(2))`. -/
def leastPrimeGe (x : Nat) : Nat := Nat.find (exists_prime_ge x)

theorem leastPrimeGe_ge (x : Nat) : x ≤ leastPrimeGe x :=
  (Nat.find_spec (exists_prime_ge x)).1

theorem leastPrimeGe_prime (x : Nat) : Nat.Prime (leastPrimeGe x) :=
  (Nat.find_spec (exists_prime_ge x)).2

theorem leastPrimeGe_min (x p : Nat) (h1 : x ≤ p) (h2 : Nat.Prime p) :
    leastPrimeGe x ≤ p :=
  Nat.find_min' _ ⟨h1, h2⟩

theorem leastPrimeGe_step (x : Nat) (hx : ¬Nat.Prime x) :
    leastPrimeGe x = leastPrimeGe (x + 1) := by
  apply le_antisymm
  · exact leastPrimeGe_min x _ (le_trans (by omega) (leastPrimeGe_ge (x + 1)))
      (leastPrimeGe_prime (x + 1))
  · refine leastPrimeGe_min (x + 1) _ ?_ (leastPrimeGe_prime x)
    have h1 := leastPrimeGe_ge x
    have h2 := leastPrimeGe_prime x
    rcases eq_or_lt_of_le h1 with h | h
    · exact absurd (h ▸ h2) hx
    · omega

theorem leastPrimeGe_self (x : Nat) (hx : Nat.Prime x) : leastPrimeGe x = x :=
  le_antisymm (leastPrimeGe_min x x le_rfl hx) (leastPrimeGe_ge x)

/-- Scan upward from `x` through the sieve's `prime` test until it
answers `true`: one pull on the generator
`filter(lambda v: self.prime(v), count(2))`, with the state threaded. -/
def findPrimeFrom (s : GoodSieve) (x : Nat) : Nat × GoodSieve :=
  if h : (primeG s (x : Int)).1 = true then (x, (primeG s (x : Int)).2)
  else findPrimeFrom (primeG s (x : Int)).2 (x + 1)
termination_by leastPrimeGe x - x
decreasing_by
  have hx : ¬Nat.Prime x := by
    intro hp
    exact h (by rw [primeG_fst]; exact decide_eq_true hp)
  rw [← leastPrimeGe_step x hx]
  have h1 := leastPrimeGe_ge x
  have h2 := leastPrimeGe_prime x
  have h3 : x ≠ leastPrimeGe x := fun hc => hx (hc ▸ h2)
  omega

theorem findPrimeFrom_fst_aux :
    ∀ (N : Nat) (s : GoodSieve) (x : Nat), leastPrimeGe x - x ≤ N →
      (findPrimeFrom s x).1 = leastPrimeGe x := by
  intro N
  induction N with
  | zero =>
    intro s x hN
    have h1 := leastPrimeGe_ge x
    have heq : leastPrimeGe x = x := by omega
    have hp : Nat.Prime x := heq ▸ leastPrimeGe_prime x
    rw [findPrimeFrom.eq_def,
      dif_pos (by rw [primeG_fst]; exact decide_eq_true hp : (primeG s (x : Int)).1 = true)]
    exact heq.symm
  | succ N ih =>
    intro s x hN
    by_cases hp : Nat.Prime x
    · rw [findPrimeFrom.eq_def,
        dif_pos (by rw [primeG_fst]; exact decide_eq_true hp : (primeG s (x : Int)).1 = true)]
      exact (leastPrimeGe_self x hp).symm
    · have hb : (primeG s (x : Int)).1 = false := by
        rw [primeG_fst]
        exact decide_eq_false hp
      rw [findPrimeFrom.eq_def, dif_neg (by rw [hb]; exact Bool.false_ne_true)]
      rw [ih (primeG s (x : Int)).2 (x + 1) ?_]
      · exact (leastPrimeGe_step x hp).symm
      · rw [← leastPrimeGe_step x hp]
        have h1 := leastPrimeGe_ge x
        have h2 := leastPrimeGe_prime x
        have h3 : x ≠ leastPrimeGe x := fun hc => hp (hc ▸ h2)
        omega

theorem findPrimeFrom_fst (s : GoodSieve) (x : Nat) :
    (findPrimeFrom s x).1 = leastPrimeGe x :=
  findPrimeFrom_fst_aux (leastPrimeGe x) s x (by omega)

/-- Pull `n` elements from the filtered stream, scanning from `x`. -/
def takePrimes (s : GoodSieve) (x : Nat) : Nat → List Nat × GoodSieve
  | 0 => ([], s)
  | n + 1 =>
    ((findPrimeFrom s x).1 ::
        (takePrimes (findPrimeFrom s x).2 ((findPrimeFrom s x).1 + 1) n).1,
      (takePrimes (findPrimeFrom s x).2 ((findPrimeFrom s x).1 + 1) n).2)

/-- Specification-side prefix of the stream of primes: `n` primes
scanning upward from `x`. -/
def primesFrom (x : Nat) : Nat → List Nat
  | 0 => []
  | n + 1 => leastPrimeGe x :: primesFrom (leastPrimeGe x + 1) n

theorem takePrimes_fst (n : Nat) : ∀ (s : GoodSieve) (x : Nat),
    (takePrimes s x n).1 = primesFrom x n := by
  induction n with
  | zero =>
    intro s x
    rfl
  | succ n ih =>
    intro s x
    simp only [takePrimes, primesFrom, findPrimeFrom_fst, ih]

/-- The `k`-th prime, 0-indexed (`nthPrimeS 0 = 2`): the specification
of ordinal access into the infinite prime sequence. -/
def nthPrimeS : Nat → Nat
  | 0 => leastPrimeGe 2
  | k + 1 => leastPrimeGe (nthPrimeS k + 1)

theorem primesFrom_nth : ∀ (n k : Nat),
    primesFrom (nthPrimeS k + 1) n =
      (List.range n).map (fun j => nthPrimeS (k + 1 + j)) := by
  intro n
  induction n with
  | zero =>
    intro k
    rfl
  | succ n ih =>
    intro k
    rw [primesFrom, show leastPrimeGe (nthPrimeS k + 1) = nthPrimeS (k + 1) from rfl,
      List.range_succ_eq_map, List.map_cons, List.map_map, ih (k + 1)]
    congr 1
    congr 1
    funext j
    simp only [Function.comp]
    congr 1
    omega

/-- The first `n` stream elements, scanned from 2, are the first `n`
primes. -/
theorem primesFrom_two (n : Nat) : primesFrom 2 n = (List.range n).map nthPrimeS := by
  cases n with
  | zero => rfl
  | succ n =>
    rw [primesFrom, show leastPrimeGe 2 = nthPrimeS 0 from rfl,
      primesFrom_nth n 0, List.range_succ_eq_map, List.map_cons, List.map_map]
    congr 1
    congr 1
    funext j
    simp only [Function.comp]
    congr 1
    omega

/-! ### `Sieve.__getitem__` (sieve.py lines 149-199) -/

/-- The errors observable from `Sieve.__getitem__`: `TypeError` (its own
raises, and the `int < None` comparison), `InfinityAccessError`,
`ValueError` (raised by `itertools.islice` for negative or zero
indices/step), and `IndexError` (`result[0]` on an empty list). -/
inductive PyErr where
  | typeErr
  | infinityAccessErr
  | valueErr
  | indexErr
deriving DecidableEq

/-- `list(islice(filter(lambda v: self.prime(v), count(2)), start, stop, step))`
(sieve.py line 192).  `islice` validates its arguments when constructed:
`start` and `stop` must be nonnegative integers and `step` positive,
otherwise it raises `ValueError`.  Its value is the sub-selection of the
stream at positions `start, start + step, … < stop`, realized here by
materializing the first `stop` stream elements and indexing into them. -/
def isliceP (s : GoodSieve) (start stop step : Int) : Except PyErr (List Int) :=
  if start < 0 ∨ stop < 0 ∨ step ≤ 0 then .error .valueErr
  else
    .ok ((rangeList start.toNat stop.toNat step.toNat).map
      (fun i => ((takePrimes s 2 stop.toNat).1.getD i 0 : Int)))

/-- The common tail of `__getitem__` (sieve.py lines 185-199): swap the
window and negate the step for a descending request, fetch ascending,
reverse if needed, and take `result[0]` for an `int` argument. -/
def getitemCore (s : GoodSieve) (start stop step : Int) (isInt : Bool) :
    Except PyErr (Int ⊕ List Int) :=
  if start > stop then
    match isliceP s (stop + 1) (start + 1) (-step) with
    | .error e => .error e
    | .ok l =>
      if isInt then
        match l.reverse with
        | [] => .error .indexErr
        | a :: _ => .ok (.inl a)
      else .ok (.inr l.reverse)
  else
    match isliceP s start stop step with
    | .error e => .error e
    | .ok l =>
      if isInt then
        match l with
        | [] => .error .indexErr
        | a :: _ => .ok (.inl a)
      else .ok (.inr l)

/-- The slice branch after `start`/`stop`/`step` have been resolved to
integers: the `any([...])` guard of sieve.py lines 175-181.  (Its first
member, `stop is None`, is unreachable here: a `None` stop has already
raised `TypeError` at the `isinstance` check, or at the `start < stop`
comparison when the step was omitted.) -/
def slicePath (s : GoodSieve) (start stop step : Int) : Except PyErr (Int ⊕ List Int) :=
  if start < 0 ∨ stop < 0 ∨ (start > stop ∧ step > 0) ∨ (start < stop ∧ step < 0) then
    .error .infinityAccessErr
  else getitemCore s start stop step false

/-- The argument of `Sieve.__getitem__`: an `int`, or a slice whose
`start`, `stop`, `step` members are integers or omitted (`None`). -/
def GetArg : Type := Int ⊕ (Option Int × Option Int × Option Int)

/-- `Sieve.__getitem__` (sieve.py lines 149-199), state threaded.
For an `int` argument `k` the window is `(k, k + 1, 1)` and none of the
slice validation runs.  For a slice: `start` defaults to `0`; an omitted
`step` defaults to `1 if start < stop else -1`, where comparing with an
omitted (`None`) stop raises `TypeError`; the `isinstance` check then
rejects a `None` stop with `TypeError`; finally the `any([...])` guard
may raise `InfinityAccessError`. -/
def getitem (s : GoodSieve) (arg : GetArg) : Except PyErr (Int ⊕ List Int) :=
  match arg with
  | .inl k => getitemCore s k (k + 1) 1 true
  | .inr (ost, osp, ose) =>
    match ose with
    | none =>
      match osp with
      | none => .error .typeErr
      | some sp => slicePath s (ost.getD 0) sp (if ost.getD 0 < sp then 1 else -1)
    | some se =>
      match osp with
      | none => .error .typeErr
      | some sp => slicePath s (ost.getD 0) sp se

theorem map_range_getD (f : Nat → Nat) (n i : Nat) (h : i < n) :
    ((List.range n).map f).getD i 0 = f i := by
  rw [List.getD_eq_getElem?_getD, List.getElem?_map, List.getElem?_range h]
  rfl

/-- Value of a valid *descending* range request: the code swaps the
window to `(stop + 1, start + 1)`, negates the step, fetches the
ascending positions `stop + 1, stop + 1 + |step|, … ≤ start`, and
reverses — so these, not `start, start + step, …`, are the ordinals
produced. -/
theorem getitem_desc (s : GoodSieve) (a b c : Int)
    (hb : 0 ≤ b) (hab : b < a) (hc : c < 0) :
    getitem s (.inr (some a, some b, some c)) =
      .ok (.inr (((rangeList (b + 1).toNat (a + 1).toNat (-c).toNat).map
        (fun k => (nthPrimeS k : Int))).reverse)) := by
  have hstep : 0 < (-c).toNat := by omega
  have hmap : (rangeList (b + 1).toNat (a + 1).toNat (-c).toNat).map
      (fun i => ((takePrimes s 2 (a + 1).toNat).1.getD i 0 : Int)) =
      (rangeList (b + 1).toNat (a + 1).toNat (-c).toNat).map
      (fun k => (nthPrimeS k : Int)) := by
    apply List.map_congr_left
    intro i hi
    have hilt : i < (a + 1).toNat :=
      ((mem_rangeList _ _ _ _ hstep).1 hi).2.1
    rw [takePrimes_fst, primesFrom_two, map_range_getD nthPrimeS _ _ hilt]
  simp only [getitem, slicePath, Option.getD_some]
  rw [if_neg (by omega : ¬(a < 0 ∨ b < 0 ∨ (a > b ∧ c > 0) ∨ (a < b ∧ c < 0)))]
  rw [getitemCore, if_pos (by omega : a > b)]
  rw [isliceP, if_neg (by omega : ¬(b + 1 < 0 ∨ a + 1 < 0 ∨ -c ≤ 0))]
  rw [hmap]
  rfl

/-! ### Error paths of `__getitem__` -/

/-- `sieve[5:5]`: the omitted step defaults to `-1` because
`start < stop` is false for equal bounds, every guard passes, and
`islice` rejects the negative step with `ValueError`. -/
theorem getitem_equal_bounds (s : GoodSieve) :
    getitem s (.inr (some 5, some 5, none)) = Except.error PyErr.valueErr := rfl

/-- `sieve[k]` for negative `k`: the `int` branch skips all the slice
validation; `islice` rejects the negative start index with `ValueError`
(not with the documented `InfinityAccessError`). -/
theorem getitem_neg_int (s : GoodSieve) (k : Int) (hk : k < 0) :
    getitem s (.inl k) = Except.error PyErr.valueErr := by
  simp only [getitem, getitemCore]
  rw [if_neg (by omega : ¬(k > k + 1)), isliceP, if_pos (Or.inl hk)]

/-- Any slice with an omitted `stop` raises `TypeError`: either at the
`start < stop` comparison (omitted step) or at the `isinstance` check.
The `stop is None` member of the `any([...])` guard is dead code. -/
theorem getitem_none_stop (s : GoodSieve) (ost ose : Option Int) :
    getitem s (.inr (ost, none, ose)) = Except.error PyErr.typeErr := by
  cases ose <;> rfl

/-- A negative `start` or `stop` (with `stop` present) raises
`InfinityAccessError`. -/
theorem getitem_neg_bounds (s : GoodSieve) (a b c : Int) (h : a < 0 ∨ b < 0) :
    getitem s (.inr (some a, some b, some c)) = Except.error PyErr.infinityAccessErr := by
  simp only [getitem, slicePath, Option.getD_some]
  rcases h with h | h
  · rw [if_pos (Or.inl h)]
  · rw [if_pos (Or.inr (Or.inl h))]

/-- Same with the step omitted. -/
theorem getitem_neg_bounds_defstep (s : GoodSieve) (a b : Int) (h : a < 0 ∨ b < 0) :
    getitem s (.inr (some a, some b, none)) = Except.error PyErr.infinityAccessErr := by
  simp only [getitem, slicePath, Option.getD_some]
  rcases h with h | h
  · rw [if_pos (Or.inl h)]
  · rw [if_pos (Or.inr (Or.inl h))]

/-- A direction-inconsistent step raises `InfinityAccessError`. -/
theorem getitem_dir_mismatch (s : GoodSieve) (a b c : Int)
    (h : (a > b ∧ c > 0) ∨ (a < b ∧ c < 0)) :
    getitem s (.inr (some a, some b, some c)) = Except.error PyErr.infinityAccessErr := by
  simp only [getitem, slicePath, Option.getD_some]
  rcases h with h | h
  · rw [if_pos (Or.inr (Or.inr (Or.inl h)))]
  · rw [if_pos (Or.inr (Or.inr (Or.inr h)))]

/-! ### Concrete values of the prime sequence -/

theorem leastPrimeGe_eq (x v : Nat)
    (h : (x ≤ v ∧ Nat.Prime v) ∧ ∀ k : Nat, k < v → ¬(x ≤ k ∧ Nat.Prime k)) :
    leastPrimeGe x = v :=
  (Nat.find_eq_iff (exists_prime_ge x)).2 h

theorem leastPrimeGe_eq' (x v : Nat) (h1 : x ≤ v) (h2 : Nat.Prime v)
    (h3 : ∀ k : Nat, x ≤ k → k < v → ¬Nat.Prime k) : leastPrimeGe x = v :=
  leastPrimeGe_eq x v ⟨⟨h1, h2⟩, fun k hk hc => h3 k hc.1 hk hc.2⟩

theorem nthPrimeS_succ (k : Nat) :
    nthPrimeS (k + 1) = leastPrimeGe (nthPrimeS k + 1) := by
  rw [nthPrimeS]

theorem nthPrimeS_0 : nthPrimeS 0 = 2 := by
  rw [show nthPrimeS 0 = leastPrimeGe 2 by rw [nthPrimeS]]
  exact leastPrimeGe_eq' 2 2 (by omega) (by norm_num) (by intro k h1 h2; omega)

theorem nthPrimeS_1 : nthPrimeS 1 = 3 := by
  rw [show (1 : Nat) = 0 + 1 from rfl, nthPrimeS_succ, nthPrimeS_0]
  exact leastPrimeGe_eq' 3 3 (by omega) (by norm_num) (by intro k h1 h2; omega)

theorem nthPrimeS_2 : nthPrimeS 2 = 5 := by
  rw [show (2 : Nat) = 1 + 1 from rfl, nthPrimeS_succ, nthPrimeS_1]
  exact leastPrimeGe_eq' 4 5 (by omega) (by norm_num)
    (by intro k h1 h2; interval_cases k <;> norm_num)

theorem nthPrimeS_3 : nthPrimeS 3 = 7 := by
  rw [show (3 : Nat) = 2 + 1 from rfl, nthPrimeS_succ, nthPrimeS_2]
  exact leastPrimeGe_eq' 6 7 (by omega) (by norm_num)
    (by intro k h1 h2; interval_cases k <;> norm_num)

theorem nthPrimeS_4 : nthPrimeS 4 = 11 := by
  rw [show (4 : Nat) = 3 + 1 from rfl, nthPrimeS_succ, nthPrimeS_3]
  exact leastPrimeGe_eq' 8 11 (by omega) (by norm_num)
    (by intro k h1 h2; interval_cases k <;> norm_num)

theorem nthPrimeS_5 : nthPrimeS 5 = 13 := by
  rw [show (5 : Nat) = 4 + 1 from rfl, nthPrimeS_succ, nthPrimeS_4]
  exact leastPrimeGe_eq' 12 13 (by omega) (by norm_num)
    (by intro k h1 h2; interval_cases k <;> norm_num)

theorem nthPrimeS_6 : nthPrimeS 6 = 17 := by
  rw [show (6 : Nat) = 5 + 1 from rfl, nthPrimeS_succ, nthPrimeS_5]
  exact leastPrimeGe_eq' 14 17 (by omega) (by norm_num)
    (by intro k h1 h2; interval_cases k <;> norm_num)

theorem nthPrimeS_7 : nthPrimeS 7 = 19 := by
  rw [show (7 : Nat) = 6 + 1 from rfl, nthPrimeS_succ, nthPrimeS_6]
  exact leastPrimeGe_eq' 18 19 (by omega) (by norm_num)
    (by intro k h1 h2; interval_cases k <;> norm_num)

theorem nthPrimeS_8 : nthPrimeS 8 = 23 := by
  rw [show (8 : Nat) = 7 + 1 from rfl, nthPrimeS_succ, nthPrimeS_7]
  exact leastPrimeGe_eq' 20 23 (by omega) (by norm_num)
    (by intro k h1 h2; interval_cases k <;> norm_num)

theorem nthPrimeS_9 : nthPrimeS 9 = 29 := by
  rw [show (9 : Nat) = 8 + 1 from rfl, nthPrimeS_succ, nthPrimeS_8]
  exact leastPrimeGe_eq' 24 29 (by omega) (by norm_num)
    (by intro k h1 h2; interval_cases k <;> norm_num)

/-! ### Pinning down concrete inverse values -/

/-- The floored square root is unique, so concrete `sqrt` values follow
from `sqrt_spec_nonneg`. -/
theorem sqrt_val (x v : Int) (hx : 0 ≤ x) (hv : 0 ≤ v)
    (h1 : v * v ≤ x) (h2 : x < (v + 1) * (v + 1)) :
    sqrt x = Except.ok v := by
  obtain ⟨n, hok, hn0, hn1, hn2⟩ := sqrt_spec_nonneg x hx
  have hle : n ≤ v := by
    by_contra hgt
    have h3 : v + 1 ≤ n := by omega
    have h4 : (v + 1) * (v + 1) ≤ n * n := mul_le_mul h3 h3 (by omega) (by omega)
    omega
  have hge : v ≤ n := by
    by_contra hgt
    have h3 : n + 1 ≤ v := by omega
    have h4 : (n + 1) * (n + 1) ≤ v * v := mul_le_mul h3 h3 (by omega) (by omega)
    omega
  have heq : n = v := by omega
  rw [hok, heq]

/-- The floored cube root is unique, so concrete `cbrt` values follow
from `cbrt_spec_neg`. -/
theorem cbrt_val (x v : Int) (hx : x < 0)
    (h1 : v * v * v ≤ x) (h2 : x < (v + 1) * (v + 1) * (v + 1)) :
    cbrt x = Except.ok v := by
  obtain ⟨n, hok, hneg, hn1, hn2⟩ := cbrt_spec_neg x hx
  have hle : n ≤ v := by
    by_contra hgt
    have h3 : v + 1 ≤ n := by omega
    have h4 := cube_mono (v + 1) n h3
    omega
  have hge : v ≤ n := by
    by_contra hgt
    have h3 : n + 1 ≤ v := by omega
    have h4 := cube_mono (n + 1) v h3
    omega
  have heq : n = v := by omega
  rw [hok, heq]

/-- `widenUntil` is a finite number of `widen` doublings, ending with
the query strictly inside the table. -/
theorem widenUntil_iterate_aux :
    ∀ (N : Nat) (t : List Bool) (n : Nat), n + 1 - t.length ≤ N → 0 < t.length →
      ∃ k : Nat, widenUntil t n = widen^[k] t ∧ n < (widen^[k] t).length := by
  intro N
  induction N with
  | zero =>
    intro t n hN hpos
    refine ⟨0, ?_, ?_⟩
    · rw [widenUntil.eq_def, if_neg (by omega : ¬(0 < t.length ∧ t.length ≤ n))]
      rfl
    · rw [Function.iterate_zero_apply]
      omega
  | succ N ih =>
    intro t n hN hpos
    by_cases hc : t.length ≤ n
    · obtain ⟨k, hk1, hk2⟩ := ih (widen t) n (by rw [widen_length]; omega)
        (by rw [widen_length]; omega)
      refine ⟨k + 1, ?_, ?_⟩
      · rw [widenUntil.eq_def, if_pos ⟨hpos, hc⟩, hk1, Function.iterate_succ_apply]
      · rw [Function.iterate_succ_apply]
        exact hk2
    · refine ⟨0, ?_, ?_⟩
      · rw [widenUntil.eq_def, if_neg (by omega : ¬(0 < t.length ∧ t.length ≤ n))]
        rfl
      · rw [Function.iterate_zero_apply]
        omega

theorem widenUntil_iterate (t : List Bool) (n : Nat) (hpos : 0 < t.length) :
    ∃ k : Nat, widenUntil t n = widen^[k] t ∧ n < (widen^[k] t).length :=
  widenUntil_iterate_aux (n + 1) t n (by omega) hpos

/-! ## The claims -/

/-- C1: for every integer `n ≥ 0`, `prime(n)` returns true iff `n` is
prime in the standard trial-division sense (`Nat.Prime`): the table is
exact after construction (`Good initTable`), exactness is preserved by
every `widen()` doubling, and from any such state `prime` reports exact
primality — in particular for all `n ∈ [0, 10000]`. -/
theorem C1_sieve_prime_exact :
    Good initTable ∧
    (∀ t : List Bool, Good t → Good (widen t)) ∧
    (∀ (t : List Bool) (x : Int), Good t → 0 ≤ x →
      (prime t x).1 = decide (Nat.Prime x.toNat)) :=
  ⟨good_initTable, good_widen, fun t x hg _ => prime_exact t x hg⟩

theorem C1_sieve_prime_exact_witness :
    (prime initTable 97).1 = decide (Nat.Prime (Int.toNat 97)) :=
  C1_sieve_prime_exact.2.2 initTable 97 good_initTable (by decide)

/-- C2 (counterexample): `sieve[9:1:-3]` returns `[23, 13, 5]` — the
primes at ordinal positions 8, 5, 2 reversed — not the elements at the
claimed positions `9, 6, 3` (which would be `[29, 17, 7]`). -/
theorem C2_range_descending_counterexample :
    getitem sieve0 (.inr (some 9, some 1, some (-3))) = Except.ok (.inr [23, 13, 5]) ∧
    getitem sieve0 (.inr (some 9, some 1, some (-3))) ≠
      Except.ok (.inr [(nthPrimeS 9 : Int), (nthPrimeS 6 : Int), (nthPrimeS 3 : Int)]) := by
  have h := getitem_desc sieve0 9 1 (-3) (by omega) (by omega) (by omega)
  rw [show ((1 : Int) + 1).toNat = 2 from rfl, show ((9 : Int) + 1).toNat = 10 from rfl,
    show (-(-3 : Int)).toNat = 3 from rfl,
    show rangeList 2 10 3 = [2, 5, 8] from rfl] at h
  rw [List.map_cons, List.map_cons, List.map_cons, List.map_nil,
    nthPrimeS_2, nthPrimeS_5, nthPrimeS_8] at h
  constructor
  · rw [h]
    rfl
  · rw [h, nthPrimeS_9, nthPrimeS_6, nthPrimeS_3]
    intro hc
    simp at hc

/-- C2 (amended): a valid descending request `range(start, stop, step)`
(`start > stop ≥ 0`, `step < 0`) swaps the window to
`(stop + 1, start + 1)` with the step negated, fetches the ascending
ordinal positions `stop + 1, stop + 1 + |step|, … ≤ start`, and reverses
the result; these positions agree with the claimed
`start, start + step, …` only when `|step|` divides `start - stop - 1`
(in particular for `step = -1`). -/
theorem C2_range_descending (s : GoodSieve) (a b c : Int)
    (hb : 0 ≤ b) (hab : b < a) (hc : c < 0) :
    getitem s (.inr (some a, some b, some c)) =
      Except.ok (.inr (((rangeList (b + 1).toNat (a + 1).toNat (-c).toNat).map
        (fun k => (nthPrimeS k : Int))).reverse)) :=
  getitem_desc s a b c hb hab hc

theorem C2_range_descending_witness :
    getitem sieve0 (.inr (some 9, some 1, some (-3))) =
      Except.ok (.inr (((rangeList ((1 : Int) + 1).toNat ((9 : Int) + 1).toNat
        (-(-3 : Int)).toNat).map (fun k => (nthPrimeS k : Int))).reverse)) :=
  C2_range_descending sieve0 9 1 (-3) (by decide) (by decide) (by decide)

/-- C3: `range(5, 5)` with the step omitted does *not* return `[]`: the
default step is `1 if start < stop else -1`, which is `-1` for equal
bounds, every guard passes, and `islice` then raises `ValueError` for
the negative step.  (The spec's intended value is the empty list; the
`ValueError` escape contradicts the docstring's error contract, so this
is a code bug.) -/
theorem C3_range_equal_bounds (s : GoodSieve) :
    getitem s (.inr (some 5, some 5, none)) = Except.error PyErr.valueErr :=
  getitem_equal_bounds s

/-- C4: negative bounds and direction-inconsistent steps do raise
`InfinityAccessError`, but an unbounded/omitted `stop` raises
`TypeError` instead (at the `start < stop` comparison or the
`isinstance` check); the `stop is None` member of the `any([...])`
guard is unreachable, so the claim's `UnboundedAccess` failure never
happens for an omitted stop — a code bug. -/
theorem C4_infinite_access_errors :
    (∀ (s : GoodSieve) (ost ose : Option Int),
      getitem s (.inr (ost, none, ose)) = Except.error PyErr.typeErr) ∧
    (∀ (s : GoodSieve) (a b c : Int), a < 0 ∨ b < 0 →
      getitem s (.inr (some a, some b, some c)) = Except.error PyErr.infinityAccessErr) ∧
    (∀ (s : GoodSieve) (a b : Int), a < 0 ∨ b < 0 →
      getitem s (.inr (some a, some b, none)) = Except.error PyErr.infinityAccessErr) ∧
    (∀ (s : GoodSieve) (a b c : Int), (a > b ∧ c > 0) ∨ (a < b ∧ c < 0) →
      getitem s (.inr (some a, some b, some c)) = Except.error PyErr.infinityAccessErr) :=
  ⟨getitem_none_stop, getitem_neg_bounds, getitem_neg_bounds_defstep, getitem_dir_mismatch⟩

theorem C4_infinite_access_errors_witness :
    getitem sieve0 (.inr (some 0, none, none)) = Except.error PyErr.typeErr ∧
    getitem sieve0 (.inr (some (-1), some 5, some 1)) = Except.error PyErr.infinityAccessErr ∧
    getitem sieve0 (.inr (some 5, some 1, some 1)) = Except.error PyErr.infinityAccessErr :=
  ⟨C4_infinite_access_errors.1 sieve0 (some 0) none,
   C4_infinite_access_errors.2.1 sieve0 (-1) 5 1 (Or.inl (by decide)),
   C4_infinite_access_errors.2.2.2 sieve0 5 1 1 (Or.inl (by decide))⟩

/-- C5: `sqrt` returns the floored integer square root on its domain
(`n ≥ 0` with `n² ≤ x < (n+1)²`; `sqrt 8 = 2`, `sqrt 9 = 3`,
`sqrt 0 = 0`), and every negative input fails the domain check with
`DomainError` before any search. -/
theorem C5_sqrt_floor :
    (∀ x : Int, 0 ≤ x → ∃ n : Int, sqrt x = Except.ok n ∧ 0 ≤ n ∧
      n * n ≤ x ∧ x < (n + 1) * (n + 1)) ∧
    sqrt 8 = Except.ok 2 ∧ sqrt 9 = Except.ok 3 ∧ sqrt 0 = Except.ok 0 ∧
    (∀ x : Int, x < 0 → sqrt x = Except.error InvErr.domainErr) :=
  ⟨sqrt_spec_nonneg,
   sqrt_val 8 2 (by omega) (by omega) (by norm_num) (by norm_num),
   sqrt_val 9 3 (by omega) (by omega) (by norm_num) (by norm_num),
   sqrt_val 0 0 (by omega) (by omega) (by norm_num) (by norm_num),
   sqrt_spec_neg⟩

theorem C5_sqrt_floor_witness :
    (∃ n : Int, sqrt 8 = Except.ok n ∧ 0 ≤ n ∧ n * n ≤ 8 ∧ 8 < (n + 1) * (n + 1)) ∧
    sqrt (-1) = Except.error InvErr.domainErr :=
  ⟨C5_sqrt_floor.1 8 (by decide), C5_sqrt_floor.2.2.2.2 (-1) (by decide)⟩

/-- C6 (counterexample): `cbrt (-9) = -3`, whose cube `-27` has
magnitude `27 > 9 = |x|`, refuting the claim that the returned value's
cube magnitude does not exceed `|x|` while the successor's exceeds it. -/
theorem C6_cbrt_counterexample :
    cbrt (-9) = Except.ok (-3) ∧
    ¬((((-3 : Int) * (-3) * (-3)).natAbs ≤ ((-9 : Int)).natAbs) ∧
      ((((-3 : Int) + 1) * ((-3 : Int) + 1) * ((-3 : Int) + 1)).natAbs >
        ((-9 : Int)).natAbs)) :=
  ⟨cbrt_val (-9) (-3) (by omega) (by norm_num) (by norm_num), by decide⟩

/-- C6 (amended): for negative `x`, `cbrt x` returns a negative `n` with
`n³ ≤ x < (n+1)³` (true floor semantics); in magnitudes, the cube of `n`
is at least `|x|` and the cube of the successor is strictly below `|x|`
— the claim has the two magnitude inequalities reversed. -/
theorem C6_cbrt_negative (x : Int) (hx : x < 0) :
    ∃ n : Int, cbrt x = Except.ok n ∧ n < 0 ∧
      n * n * n ≤ x ∧ x < (n + 1) * (n + 1) * (n + 1) ∧
      x.natAbs ≤ (n * n * n).natAbs ∧
      ((n + 1) * (n + 1) * (n + 1)).natAbs < x.natAbs := by
  obtain ⟨n, hok, hneg, h1, h2⟩ := cbrt_spec_neg x hx
  have hc : (n + 1) * (n + 1) * (n + 1) ≤ 0 := by
    have h3 := cube_mono (n + 1) 0 (by omega)
    simpa using h3
  exact ⟨n, hok, hneg, h1, h2, by omega, by omega⟩

theorem C6_cbrt_negative_witness :
    ∃ n : Int, cbrt (-9) = Except.ok n ∧ n < 0 ∧
      n * n * n ≤ -9 ∧ (-9 : Int) < (n + 1) * (n + 1) * (n + 1) ∧
      ((-9 : Int)).natAbs ≤ (n * n * n).natAbs ∧
      ((n + 1) * (n + 1) * (n + 1)).natAbs < ((-9 : Int)).natAbs :=
  C6_cbrt_negative (-9) (by decide)

/-- C7: single-index access `sieve[k]` for negative `k` is rejected, but
with `islice`'s `ValueError`, not with the docstring's
`InfinityAccessError`: the `int` branch bypasses all the slice
validation — a code bug. -/
theorem C7_negative_ordinal (s : GoodSieve) (k : Int) (hk : k < 0) :
    getitem s (.inl k) = Except.error PyErr.valueErr :=
  getitem_neg_int s k hk

theorem C7_negative_ordinal_witness :
    getitem sieve0 (.inl (-1)) = Except.error PyErr.valueErr :=
  C7_negative_ordinal sieve0 (-1) (by decide)

/-- C8: `prime` never raises: it is a total function into `Bool` (no
error component in its type); every integer `x ≤ 1` — including every
negative integer — degrades to `false`, and every `x ≥ 2` yields the
primality verdict.  (Non-integer arguments are subsumed by the
`isinstance` guard, which also returns `false`.) -/
theorem C8_prime_total (t : List Bool) (x : Int) (hg : Good t) :
    (x ≤ 1 → (prime t x).1 = false) ∧
    (2 ≤ x → ((prime t x).1 = true ↔ Nat.Prime x.toNat)) := by
  constructor
  · intro h1
    rw [prime, if_pos h1]
  · intro h2
    rw [prime_exact t x hg]
    simp only [decide_eq_true_eq]

theorem C8_prime_total_witness :
    (prime initTable (-5)).1 = false ∧
    ((prime initTable 7).1 = true ↔ Nat.Prime (Int.toNat 7)) :=
  ⟨(C8_prime_total initTable (-5) good_initTable).1 (by decide),
   (C8_prime_total initTable 7 good_initTable).2 (by decide)⟩

/-- C9: every operation terminates.  The sieve starts at length 1024;
from any positive-length state the `while x >= len(...)` loop is a
finite number of `widen` doublings ending with the query covered; and
each `searchLoop` iteration either returns an exact hit or recurses on a
strictly smaller interval, so the binary search terminates for every
total `f` and integer bounds. -/
theorem C9_termination :
    initTable.length = 1024 ∧
    (∀ (t : List Bool) (n : Nat), 0 < t.length →
      ∃ k : Nat, widenUntil t n = widen^[k] t ∧ n < (widen^[k] t).length) ∧
    (∀ (f : Int → Int) (x : Int) (inc : Bool) (l r : Int), l ≤ r →
      (searchLoop f x inc l r l r = Except.ok ((l + r) / 2) ∧ f ((l + r) / 2) = x) ∨
      (∃ l2 r2 : Int, searchLoop f x inc l r l r = searchLoop f x inc l2 r2 l2 r2 ∧
        (r2 + 1 - l2).toNat < (r + 1 - l).toNat)) := by
  refine ⟨?_, widenUntil_iterate, searchLoop_step⟩
  rw [initTable_length]
  rfl

theorem C9_termination_witness :
    (∃ k : Nat, widenUntil initTable 5000 = widen^[k] initTable ∧
      5000 < (widen^[k] initTable).length) ∧
    ((searchLoop (fun v => v * v) 10 true 0 10 0 10 =
        Except.ok (((0 : Int) + 10) / 2) ∧
      (fun v : Int => v * v) (((0 : Int) + 10) / 2) = 10) ∨
      (∃ l2 r2 : Int, searchLoop (fun v => v * v) 10 true 0 10 0 10 =
          searchLoop (fun v => v * v) 10 true l2 r2 l2 r2 ∧
        (r2 + 1 - l2).toNat < ((10 : Int) + 1 - 0).toNat)) :=
  ⟨C9_termination.2.1 initTable 5000 (by rw [initTable_length]; exact Nat.succ_pos _),
   C9_termination.2.2 (fun v => v * v) 10 true 0 10 (by decide)⟩

/-- C10: the function produced by the inverse constructor never raises
`NothingFoundError`: each binary-search iteration strictly moves one
bound, so the stall check against the previous `(left, right)` pair can
never fire, for every total `f`, bound pair and query. -/
theorem C10_no_search_stall (func : Int → Int) (bd : BoundSpec × BoundSpec)
    (dom : Option Int × Option Int) (x : Int) :
    inv_function func bd dom x ≠ Except.error InvErr.nothingFound :=
  inv_function_ne_nothingFound func bd dom x

end Tools
